import Mathlib

/-!
Verification of the behavior-tree cursor interpreter (`src/cursor.rs`).

The source file contains the `Cursor` enum and `Cursor::update`.  The static
`Event` tree, the `StartState` trait and `Event::to_cursor` are declared in
the repository but their code is not under `src/`; they are modelled from the
specification (sections 3 and 4.2).  `f64` delta times are modelled by `ℚ`;
the Rust constant `std::f64::MAX_VALUE` is the exact rational
`(2^53 - 1) * 2^971`.  `uint` indices are `Nat`.

`Cursor::update` recurses into child cursors and, in the `Select`, `Sequence`
and `While` arms, runs loops that re-spawn child cursors from the event list.
The `Select`/`Sequence` loops always terminate (the index strictly increases
towards the list length) and are embedded as well-founded recursions.  The
`While` body loop of the source has no such bound, so it is embedded with an
explicit fuel parameter; recursion into child cursors likewise uses a fuel
parameter decremented at each `update` entry.  `update fuel c e f start =
none` means the fuel was exhausted; a result of the Rust code corresponds to
`some` for every sufficiently large fuel, and a run that returns `none` for
every fuel is a genuine non-terminating execution of the source loop.
-/

namespace Piston

/-- Status of an event: `Running`, `Success`, `Failure` (from the repository's
public API, spec section 3). -/
inductive Status where
  | Running
  | Success
  | Failure
deriving DecidableEq, Repr

/-- Modelled from the spec: the host input event (spec section 6), with the two
relevant variants `Update { dt }` and `KeyPress { key }` of piston's
`GameEvent`.  Keys are modelled as natural numbers. -/
inductive GameEvent where
  | Update (dt : ℚ)
  | KeyPress (key : Nat)
deriving DecidableEq, Repr

/-- The delta time carried by an event: `dt` for `Update(dt)`, `0` for
instantaneous events (the `match remaining_e { Update(..) => dt, _ => 0.0 }`
pattern of the source). -/
def dtOf : GameEvent → ℚ
  | .Update dt => dt
  | _ => 0

/-- Modelled from the spec: the static event tree (spec section 3); its Rust
definition (`Event<A>`) is not under `src/`, only referenced by
`src/cursor.rs`. -/
inductive Event (A : Type) where
  | KeyPressed (key : Nat)
  | Action (action : A)
  | Invert (e : Event A)
  | Wait (dt : ℚ)
  | Select (es : List (Event A))
  | Sequence (es : List (Event A))
  | While (cond : Event A) (body : List (Event A))
  | WhenAll (es : List (Event A))

/-- The dynamic cursor tree, one variant per event variant
(`Cursor<'a, A, S>` in `src/cursor.rs`).  Borrowed `&'a Vec<Event<A>>`
references are modelled as the list itself (the event tree is immutable). -/
inductive Cursor (A S : Type) where
  | KeyPressedCursor (key : Nat)
  | State (action : A) (state : S)
  | InvertCursor (inner : Cursor A S)
  | WaitCursor (waitT : ℚ) (elapsed : ℚ)
  | SelectCursor (seq : List (Event A)) (i : Nat) (cur : Cursor A S)
  | SequenceCursor (seq : List (Event A)) (i : Nat) (cur : Cursor A S)
  | WhileCursor (evCursor : Cursor A S) (rep : List (Event A)) (i : Nat) (cur : Cursor A S)
  | WhenAllCursor (cursors : List (Option (Cursor A S)))

/-- The exact rational value of Rust's `std::f64::MAX_VALUE`, the initial
value of `min_dt` in the `WhenAll` arm of `Cursor::update`. -/
def f64MaxValue : ℚ := (2 ^ 53 - 1) * 2 ^ 971

mutual

/-- Modelled from the spec: `Event::to_cursor` (spec section 4.2); its Rust
code is not under `src/`.  `start` models the `StartState` trait's
`start_state`.  The spec leaves `to_cursor` undefined on `Select`, `Sequence`
and `While` with empty child lists; there the model spawns the inert cursor
`WaitCursor 0 0` for the (nonexistent) first child. -/
def toCursor {A S : Type} (start : A → S) : Event A → Cursor A S
  | .KeyPressed k => .KeyPressedCursor k
  | .Action a => .State a (start a)
  | .Invert e => .InvertCursor (toCursor start e)
  | .Wait d => .WaitCursor d 0
  | .Select es =>
      .SelectCursor es 0 (match es with
        | [] => .WaitCursor 0 0
        | e0 :: _ => toCursor start e0)
  | .Sequence es =>
      .SequenceCursor es 0 (match es with
        | [] => .WaitCursor 0 0
        | e0 :: _ => toCursor start e0)
  | .While c b =>
      .WhileCursor (toCursor start c) b 0 (match b with
        | [] => .WaitCursor 0 0
        | e0 :: _ => toCursor start e0)
  | .WhenAll es => .WhenAllCursor (toCursorSlots start es)

/-- Modelled from the spec: the initial slot vector of a `WhenAll` cursor —
`Some(e.to_cursor())` for every child. -/
def toCursorSlots {A S : Type} (start : A → S) : List (Event A) → List (Option (Cursor A S))
  | [] => []
  | e :: rest => some (toCursor start e) :: toCursorSlots start rest

end

/-- The `while *i < seq.len()` loop of the `SelectCursor` arm of
`Cursor::update`.  `upd` ticks a child cursor (the recursive `update` call at
one less fuel), `e` is the original event, `remE` the current
`remaining_e`.  The countdown `k` is the loop's termination measure
`seq.length - i`, kept explicitly so the recursion is structural: `k = 0`
exactly when the `while` guard `i < seq.length` fails, in which case the
source falls through to `(Running, 0.0)`; the caller (`update`) passes
`seq.length - i`, and the recursive call at `i + 1 < seq.length` keeps the
invariant.  Returns status, delta time, and the final index and child cursor
of the `SelectCursor`. -/
def selLoop {A S : Type} (upd : Cursor A S → GameEvent → Option (Status × ℚ × Cursor A S))
    (start : A → S) (seq : List (Event A)) (e : GameEvent) :
    Nat → Nat → Cursor A S → GameEvent → Option (Status × ℚ × Nat × Cursor A S)
  | 0, i, cur, _ => some (.Running, 0, i, cur)
  | k + 1, i, cur, remE =>
    match upd cur remE with
    | none => none
    | some (.Success, x, c') => some (.Success, x, i, c')
    | some (.Running, _, c') => some (.Running, 0, i, c')
    | some (.Failure, newDt, c') =>
      let remE' : GameEvent := match e with
        | .Update _ => .Update newDt
        | x => x
      if i + 1 ≥ seq.length then some (.Failure, dtOf remE', i + 1, c')
      else selLoop upd start seq e k (i + 1) (toCursor start (seq.getD (i + 1) (.Wait 0))) remE'

/-- The `while *i < seq.len()` loop of the `SequenceCursor` arm of
`Cursor::update`.  On child `Success` with a non-`Update` original event the
source returns early: `(Success, new_dt)` if the child was last, otherwise
`(Running, 0.0)` without advancing the index.  As in `selLoop`, the
countdown `k` is the explicit termination measure `seq.length - i` of the
`while` guard. -/
def seqLoop {A S : Type} (upd : Cursor A S → GameEvent → Option (Status × ℚ × Cursor A S))
    (start : A → S) (seq : List (Event A)) (e : GameEvent) :
    Nat → Nat → Cursor A S → GameEvent → Option (Status × ℚ × Nat × Cursor A S)
  | 0, i, cur, _ => some (.Running, 0, i, cur)
  | k + 1, i, cur, remE =>
    match upd cur remE with
    | none => none
    | some (.Failure, x, c') => some (.Failure, x, i, c')
    | some (.Running, _, c') => some (.Running, 0, i, c')
    | some (.Success, newDt, c') =>
      match e with
      | .Update _ =>
        if i + 1 ≥ seq.length then some (.Success, newDt, i + 1, c')
        else seqLoop upd start seq e k (i + 1) (toCursor start (seq.getD (i + 1) (.Wait 0)))
          (.Update newDt)
      | _ =>
        if i = seq.length - 1 then some (.Success, newDt, i, c')
        else some (.Running, 0, i, c')

/-- The `loop { .. }` of the `WhileCursor` arm of `Cursor::update`.  The
source loop has no structural bound (it re-spawns a fresh body child after
every `Success` and only exits on `Running` or `Failure`), so it takes a fuel
parameter; `none` means the iteration bound was exhausted. -/
def whileLoop {A S : Type} (upd : Cursor A S → GameEvent → Option (Status × ℚ × Cursor A S))
    (start : A → S) :
    Nat → List (Event A) → Nat → Cursor A S → GameEvent → GameEvent →
      Option (Status × ℚ × Nat × Cursor A S)
  | 0, _, _, _, _, _ => none
  | fw + 1, rep, i, cur, e, remE =>
    match upd cur remE with
    | none => none
    | some (.Failure, x, c') => some (.Failure, x, i, c')
    | some (.Running, _, c') => some (.Running, 0, i, c')
    | some (.Success, newDt, c') =>
      match e with
      | .Update _ =>
        let i' := if i + 1 ≥ rep.length then 0 else i + 1
        whileLoop upd start fw rep i' (toCursor start (rep.getD i' (.Wait 0))) e (.Update newDt)
      | _ => some (.Running, 0, i, c')

/-- Result of the `for cur in cursors.mut_iter()` loop in the `WhenAll` arm:
either an early `Failure` return (with the slot vector as mutated so far:
ticked prefix, failing slot, untouched suffix), or loop completion with the
final `min_dt`, `terminated` count and slot vector. -/
inductive WhenAllRes (A S : Type) where
  | failed (dt : ℚ) (cursors : List (Option (Cursor A S)))
  | finished (minDt : ℚ) (terminated : Nat) (cursors : List (Option (Cursor A S)))

/-- Re-attach a processed slot in front of a `WhenAllRes`. -/
def WhenAllRes.consSlot {A S : Type} (x : Option (Cursor A S)) : WhenAllRes A S → WhenAllRes A S
  | .failed d l => .failed d (x :: l)
  | .finished m t l => .finished m t (x :: l)

/-- The slot loop of the `WhenAll` arm of `Cursor::update`: tick every
non-empty slot with the same event, short-circuit on `Failure`, accumulate
`min_dt` (started at `f64MaxValue`) and the `terminated` count.  Note the
source never writes `None` into a slot. -/
def whenAllGo {A S : Type} (upd : Cursor A S → Option (Status × ℚ × Cursor A S)) :
    List (Option (Cursor A S)) → ℚ → Nat → Option (WhenAllRes A S)
  | [], minDt, term => some (.finished minDt term [])
  | none :: rest, minDt, term => (whenAllGo upd rest minDt (term + 1)).map (.consSlot none)
  | some c :: rest, minDt, term =>
    match upd c with
    | none => none
    | some (.Running, _, c') => (whenAllGo upd rest minDt term).map (.consSlot (some c'))
    | some (.Failure, d, c') => some (.failed d (some c' :: rest))
    | some (.Success, d, c') =>
      (whenAllGo upd rest (min minDt d) (term + 1)).map (.consSlot (some c'))

/-- `Cursor::update` from `src/cursor.rs`.  `f` is the host-supplied step
function (returning the new action state explicitly instead of mutating it);
`start` is `StartState::start_state`, needed by the loops that re-spawn child
cursors via `to_cursor`.  The match arms are in source order; the final
catch-all is the source's `_ => (Running, 0.0)` fallback.  The returned
cursor is the mutated `self`.  The first `Nat` argument is fuel, decremented
at each recursive `update` entry; the `While` body loop receives the current
fuel as its iteration bound. -/
def update {A S : Type} : Nat → Cursor A S → GameEvent →
    (ℚ → A → S → Status × ℚ × S) → (A → S) → Option (Status × ℚ × Cursor A S)
  | 0, _, _, _, _ => none
  | n + 1, c, e, f, start =>
    match e, c with
    | .KeyPress keyPressed, .KeyPressedCursor key =>
      if keyPressed = key then some (.Success, 0, .KeyPressedCursor key)
      else some (.Running, 0, .KeyPressedCursor key)
    | .Update dt, .State action state =>
      match f dt action state with
      | (st, d, state') => some (st, d, .State action state')
    | e, .InvertCursor cur =>
      match update n cur e f start with
      | none => none
      | some (.Running, d, c') => some (.Running, d, .InvertCursor c')
      | some (.Failure, d, c') => some (.Success, d, .InvertCursor c')
      | some (.Success, d, c') => some (.Failure, d, .InvertCursor c')
    | .Update dt, .WaitCursor waitT t =>
      if t + dt ≥ waitT then some (.Success, t + dt - waitT, .WaitCursor waitT waitT)
      else some (.Running, 0, .WaitCursor waitT (t + dt))
    | e, .SelectCursor seq i cur =>
      (selLoop (fun c' e' => update n c' e' f start) start seq e (seq.length - i) i cur e).map
        (fun r => (r.1, r.2.1, .SelectCursor seq r.2.2.1 r.2.2.2))
    | e, .SequenceCursor seq i cur =>
      (seqLoop (fun c' e' => update n c' e' f start) start seq e (seq.length - i) i cur e).map
        (fun r => (r.1, r.2.1, .SequenceCursor seq r.2.2.1 r.2.2.2))
    | e, .WhileCursor evCursor rep i cur =>
      match update n evCursor e f start with
      | none => none
      | some (.Running, _, evc') =>
        (whileLoop (fun c' e' => update n c' e' f start) start n rep i cur e e).map
          (fun r => (r.1, r.2.1, .WhileCursor evc' rep r.2.2.1 r.2.2.2))
      | some (st, d, evc') => some (st, d, .WhileCursor evc' rep i cur)
    | e, .WhenAllCursor cursors =>
      match whenAllGo (fun c' => update n c' e f start) cursors f64MaxValue 0 with
      | none => none
      | some (.failed d cursors') => some (.Failure, d, .WhenAllCursor cursors')
      | some (.finished minDt term cursors') =>
        if cursors'.length = 0 then some (.Success, dtOf e, .WhenAllCursor cursors')
        else if term = cursors'.length then some (.Success, minDt, .WhenAllCursor cursors')
        else some (.Running, 0, .WhenAllCursor cursors')
    | _, c => some (.Running, 0, c)
termination_by structural n _ _ _ _ => n

/-- The precondition of spec section 7 on the host step function: the leftover
delta time it returns lies in `[0, input dt]` (stated for non-negative
inputs, the only ones the interpreter produces from a non-negative tick). -/
def stepOK {A S : Type} (f : ℚ → A → S → Status × ℚ × S) : Prop :=
  ∀ (dt : ℚ) (a : A) (s : S), 0 ≤ dt → 0 ≤ (f dt a s).2.1 ∧ (f dt a s).2.1 ≤ dt

/-- Well-formed event trees: `Wait` targets are non-negative.  (Spec section 7
declares non-finite or negative times undefined behaviour.) -/
inductive Event.WFe {A : Type} : Event A → Prop where
  | keyPressed {k} : WFe (.KeyPressed k)
  | action {a} : WFe (.Action a)
  | invert {e} : WFe e → WFe (.Invert e)
  | wait {d} : 0 ≤ d → WFe (.Wait d)
  | select {es} : (∀ e ∈ es, WFe e) → WFe (.Select es)
  | sequence {es} : (∀ e ∈ es, WFe e) → WFe (.Sequence es)
  | whileE {c b} : WFe c → (∀ e ∈ b, WFe e) → WFe (.While c b)
  | whenAll {es} : (∀ e ∈ es, WFe e) → WFe (.WhenAll es)

/-- Well-formed cursors: the states reachable by spawning a well-formed event
tree and ticking it.  `WaitCursor` keeps `0 ≤ elapsed ≤ target` (spec
invariant 4); child event lists are well-formed; `WhenAll` slots are all
occupied — the source never writes `None` into a slot (see the C1
analysis). -/
inductive Cursor.WF {A S : Type} : Cursor A S → Prop where
  | keyPressedCursor {k} : WF (.KeyPressedCursor k)
  | state {a s} : WF (.State a s)
  | invertCursor {c} : WF c → WF (.InvertCursor c)
  | waitCursor {w t} : 0 ≤ t → t ≤ w → WF (.WaitCursor w t)
  | selectCursor {seq i c} : (∀ e ∈ seq, Event.WFe e) → WF c → WF (.SelectCursor seq i c)
  | sequenceCursor {seq i c} : (∀ e ∈ seq, Event.WFe e) → WF c → WF (.SequenceCursor seq i c)
  | whileCursor {evc rep i c} : WF evc → (∀ e ∈ rep, Event.WFe e) → WF c →
      WF (.WhileCursor evc rep i c)
  | whenAllCursor {slots} : (∀ c? ∈ slots, c? ≠ none) → (∀ c, some c ∈ slots → WF c) →
      WF (.WhenAllCursor slots)

/-- A trivial host step function (the leaf action never finishes and consumes
all time), used to instantiate theorems at concrete inputs. -/
def trivF : ℚ → Unit → Unit → Status × ℚ × Unit := fun _ _ _ => (.Running, 0, ())

/-- Trivial `start_state` for `Unit` actions. -/
def trivStart : Unit → Unit := fun _ => ()

/-- A step function over a `Bool` action state that succeeds instantly on its
first tick and fails on any later tick: it witnesses that re-ticking an
already-succeeded child is observable. -/
def flagF : ℚ → Unit → Bool → Status × ℚ × Bool := fun _ _ s =>
  if s then (.Failure, 7, true) else (.Success, 0, true)

/-- `start_state` for the `flagF` action: the flag starts unset. -/
def flagStart : Unit → Bool := fun _ => false

/-- C8: the `WaitCursor` arm.  On `Update(dt)` with `elapsed + dt ≥ target`,
the elapsed time is clamped to the target and `(Success, elapsed + dt -
target)` is returned; otherwise the elapsed time grows by `dt` and
`(Running, 0)` is returned; any non-`Update` event leaves the cursor
unchanged and returns `(Running, 0)`.  Afterwards `elapsed ≤ target` holds
whenever it held before the call. -/
theorem c8_wait_cursor {A S : Type} (n : Nat) (w t dt : ℚ) (k : Nat)
    (f : ℚ → A → S → Status × ℚ × S) (start : A → S) :
    (t + dt ≥ w → update (n + 1) (.WaitCursor w t) (.Update dt) f start
        = some (.Success, t + dt - w, .WaitCursor w w))
    ∧ (t + dt < w → update (n + 1) (.WaitCursor w t) (.Update dt) f start
        = some (.Running, 0, .WaitCursor w (t + dt)))
    ∧ (update (n + 1) (.WaitCursor w t) (.KeyPress k) f start
        = some (.Running, 0, .WaitCursor w t))
    ∧ (t ≤ w → ∀ (m : Nat) (e : GameEvent) (st : Status) (d : ℚ) (c' : Cursor A S),
        update m (.WaitCursor w t) e f start = some (st, d, c')
        → ∃ t', c' = .WaitCursor w t' ∧ t' ≤ w) := by
  refine ⟨fun h => ?_, fun h => ?_, ?_, fun htw m e st d c' h => ?_⟩
  · simp [update, h]
  · simp [update, not_le.mpr h]
  · simp [update]
  · match m with
    | 0 => simp [update] at h
    | m + 1 =>
      match e with
      | .Update dt' =>
        by_cases hge : t + dt' ≥ w
        · simp [update, hge] at h
          exact ⟨w, h.2.2.symm, le_refl w⟩
        · simp [update, hge] at h
          exact ⟨t + dt', h.2.2.symm, le_of_lt (not_le.mp hge)⟩
      | .KeyPress k' =>
        simp [update] at h
        exact ⟨t, h.2.2.symm, htw⟩

/-- C8 witness: `Wait(1)` at elapsed `0` ticked with `Update(2)` clamps to the
target and returns the surplus `1`. -/
theorem c8_wait_cursor_witness :
    update 1 (Cursor.WaitCursor 1 0 : Cursor Unit Unit) (.Update 2) trivF trivStart
      = some (.Success, 0 + 2 - 1, .WaitCursor 1 1) :=
  (c8_wait_cursor 0 1 0 2 0 trivF trivStart).1 (by norm_num)

/-- Ticking a doubly inverted cursor swaps `Success` and `Failure` twice:
the result is that of the inner cursor, with the result cursor wrapped in the
two `InvertCursor` layers (fuel is counted per interpreter entry, hence the
offset of two). -/
theorem invert_invert_update {A S : Type} (n : Nat) (c : Cursor A S) (e : GameEvent)
    (f : ℚ → A → S → Status × ℚ × S) (start : A → S) :
    update (n + 2) (.InvertCursor (.InvertCursor c)) e f start
      = (update n c e f start).map
          (fun r => (r.1, r.2.1, .InvertCursor (.InvertCursor r.2.2))) := by
  rcases h : update n c e f start with _ | ⟨st, d, c'⟩
  · simp [update, h]
  · cases st <;> simp [update, h]

/-- C9: `Invert(Invert(e))` is observationally equivalent to `e`: one update
call on the cursor spawned from the doubly inverted tree returns exactly the
status and leftover dt of the corresponding call on the cursor of `e`, and
the resulting cursor is the double wrap of the cursor `e`'s call leaves —
so the relation is preserved tick after tick (the `InvertCursor` arm swaps
`Success` and `Failure` and passes `Running` and the dt through). -/
theorem c9_invert_involution {A S : Type} (n : Nat) (e : Event A) (ev : GameEvent)
    (f : ℚ → A → S → Status × ℚ × S) (start : A → S) :
    update (n + 2) (toCursor start (.Invert (.Invert e))) ev f start
      = (update n (toCursor start e) ev f start).map
          (fun r => (r.1, r.2.1, .InvertCursor (.InvertCursor r.2.2))) := by
  have h := invert_invert_update n (toCursor start e) ev f start
  simpa [toCursor] using h

/-- C1 (failing input): the `WhenAll` arm never clears a slot.  First tick:
the first child (a leaf action) returns `Success` while the second slot is
still `Running` — the update returns `(Running, 0)` but the first slot is
still occupied (`some`), not `None`.  Second tick: the already-succeeded
child is ticked again (not skipped); its step function observes the re-tick
and fails, so the whole `WhenAll` returns `Failure` — impossible if the slot
had been emptied and skipped as the claim states. -/
theorem c1_whenall_slot_not_cleared :
    update 3 (Cursor.WhenAllCursor [some (.State () false), some (.WaitCursor 2 0)])
        (.Update 1) flagF flagStart
      = some (.Running, 0, .WhenAllCursor [some (.State () true), some (.WaitCursor 2 1)])
    ∧ update 3 (Cursor.WhenAllCursor [some (.State () true), some (.WaitCursor 2 1)])
        (.Update 1) flagF flagStart
      = some (.Failure, 7, .WhenAllCursor [some (.State () true), some (.WaitCursor 2 1)]) := by
  constructor
  · simp [update, whenAllGo, WhenAllRes.consSlot, flagF, f64MaxValue]
  · simp [update, whenAllGo, WhenAllRes.consSlot, flagF]

/-- C4: the `SequenceCursor` arm on a non-`Update` event (`KeyPress`): when
the current child returns `Success`, the loop returns `(Success, new_dt)` if
that child was the last one and `(Running, 0)` otherwise; in both cases the
index is left where it was (the early `return` skips the `*i += 1`). -/
theorem c4_sequence_nonupdate_success {A S : Type} (n : Nat) (seq : List (Event A)) (i : Nat)
    (cur c' : Cursor A S) (k : Nat) (d : ℚ)
    (f : ℚ → A → S → Status × ℚ × S) (start : A → S)
    (hi : i < seq.length)
    (hchild : update n cur (.KeyPress k) f start = some (.Success, d, c')) :
    update (n + 1) (.SequenceCursor seq i cur) (.KeyPress k) f start
      = if i = seq.length - 1
        then some (.Success, d, .SequenceCursor seq i c')
        else some (.Running, 0, .SequenceCursor seq i c') := by
  obtain ⟨m, hm⟩ : ∃ m, seq.length - i = m + 1 := ⟨seq.length - i - 1, by omega⟩
  simp only [update, hm]
  rw [seqLoop]
  simp only [hchild]
  split <;> simp_all

/-- C4 witness: a one-element sequence whose child succeeds on the key press;
the child is last, so the sequence succeeds with the child's dt. -/
theorem c4_sequence_nonupdate_success_witness :
    update 2 (Cursor.SequenceCursor [.KeyPressed 0] 0
        (.KeyPressedCursor 0) : Cursor Unit Unit) (.KeyPress 0) trivF trivStart
      = if 0 = ([Event.KeyPressed 0] : List (Event Unit)).length - 1
        then some (.Success, 0, .SequenceCursor [.KeyPressed 0] 0 (.KeyPressedCursor 0))
        else some (.Running, 0, .SequenceCursor [.KeyPressed 0] 0 (.KeyPressedCursor 0)) :=
  c4_sequence_nonupdate_success 1 [.KeyPressed 0] 0 (.KeyPressedCursor 0)
    (.KeyPressedCursor 0) 0 0 trivF trivStart (by simp) (by simp [update])

/-- C10 counterexample: the claim says the child-cursor slot is left exactly
as it was before the call.  Take the sequence
`[Select [Invert (KeyPressed 0), KeyPressed 0], Wait 1]` on event
`KeyPress 0`: the current child (the select) returns `Success` (it is not
last, event not `Update`), so the sequence returns `(Running, 0)` with index
`0` unchanged — but the child slot now holds the select cursor at index `1`
with a re-spawned grandchild, not the cursor it held before the call. -/
theorem c10_counterexample :
    update 5 (Cursor.SequenceCursor
        [.Select [.Invert (.KeyPressed 0), .KeyPressed 0], .Wait 1] 0
        (.SelectCursor [.Invert (.KeyPressed 0), .KeyPressed 0] 0
          (.InvertCursor (.KeyPressedCursor 0))) : Cursor Unit Unit)
      (.KeyPress 0) trivF trivStart
      = some (.Running, 0, .SequenceCursor
          [.Select [.Invert (.KeyPressed 0), .KeyPressed 0], .Wait 1] 0
          (.SelectCursor [.Invert (.KeyPressed 0), .KeyPressed 0] 1 (.KeyPressedCursor 0)))
    ∧ (Cursor.SelectCursor
        [.Invert (.KeyPressed 0), .KeyPressed 0] 1 (.KeyPressedCursor 0) : Cursor Unit Unit)
      ≠ .SelectCursor [.Invert (.KeyPressed 0), .KeyPressed 0] 0
          (.InvertCursor (.KeyPressedCursor 0)) := by
  constructor
  · rfl
  · intro h
    injection h with h1 h2 h3
    exact absurd h2 (by omega)

/-- C10 amended: on a non-`Update` event where the current, non-last child
returns `Success`, the sequence returns `(Running, 0)` with the index
unchanged and the child slot neither advanced nor re-spawned — it holds the
same child's cursor as mutated by the child's own tick, which the next
update call will tick again. -/
theorem c10_sequence_nonupdate_no_advance {A S : Type} (n : Nat) (seq : List (Event A))
    (i : Nat) (cur c' : Cursor A S) (k : Nat) (d : ℚ)
    (f : ℚ → A → S → Status × ℚ × S) (start : A → S)
    (hi : i + 1 < seq.length)
    (hchild : update n cur (.KeyPress k) f start = some (.Success, d, c')) :
    update (n + 1) (.SequenceCursor seq i cur) (.KeyPress k) f start
      = some (.Running, 0, .SequenceCursor seq i c') := by
  obtain ⟨m, hm⟩ : ∃ m, seq.length - i = m + 1 := ⟨seq.length - i - 1, by omega⟩
  simp only [update, hm]
  rw [seqLoop]
  simp only [hchild]
  have hne : ¬ i = seq.length - 1 := by omega
  simp [hne]

/-- C10 amended witness: a two-element sequence whose first child succeeds on
the key press; the sequence stays `Running` at index `0`. -/
theorem c10_sequence_nonupdate_no_advance_witness :
    update 2 (Cursor.SequenceCursor [.KeyPressed 0, .Wait 1] 0
        (.KeyPressedCursor 0) : Cursor Unit Unit) (.KeyPress 0) trivF trivStart
      = some (.Running, 0, .SequenceCursor [.KeyPressed 0, .Wait 1] 0 (.KeyPressedCursor 0)) :=
  c10_sequence_nonupdate_no_advance 1 [.KeyPressed 0, .Wait 1] 0 (.KeyPressedCursor 0)
    (.KeyPressedCursor 0) 0 0 trivF trivStart (by simp) (by simp [update])

/-- C5: the `SelectCursor` arm on `Update(dt)`: when the current child fails
with leftover dt `d'`, the index advances and — unless the list is
exhausted — the loop continues on the freshly spawned next sibling with the
cascaded event `Update(d')` in the same call; when the failing child was the
last one, the call returns `(Failure, d')`, the dt of the final remaining
event. -/
theorem c5_select_update_cascade {A S : Type} (n : Nat) (seq : List (Event A)) (i : Nat)
    (cur c1 : Cursor A S) (dt d' : ℚ)
    (f : ℚ → A → S → Status × ℚ × S) (start : A → S)
    (hi : i < seq.length)
    (hchild : update n cur (.Update dt) f start = some (.Failure, d', c1)) :
    update (n + 1) (.SelectCursor seq i cur) (.Update dt) f start
      = if i + 1 < seq.length
        then (selLoop (fun c' e' => update n c' e' f start) start seq (.Update dt)
                (seq.length - (i + 1)) (i + 1)
                (toCursor start (seq.getD (i + 1) (.Wait 0))) (.Update d')).map
              (fun r => (r.1, r.2.1, .SelectCursor seq r.2.2.1 r.2.2.2))
        else some (.Failure, d', .SelectCursor seq (i + 1) c1) := by
  obtain ⟨m, hm⟩ : ∃ m, seq.length - i = m + 1 := ⟨seq.length - i - 1, by omega⟩
  have hm' : seq.length - (i + 1) = m := by omega
  simp only [update, hm]
  rw [selLoop]
  simp only [hchild]
  by_cases h : i + 1 < seq.length
  · simp only [h, if_true, Nat.not_le.mpr h, if_neg (by omega : ¬ i + 1 ≥ seq.length), hm']
    simp
  · simp only [h, if_false, if_pos (by omega : i + 1 ≥ seq.length), dtOf]
    simp

/-- C5 witness: `Select [Invert (Wait (1/2)), Wait (1/4)]` on `Update 1`: the
first child fails with leftover `1/2`, and the next sibling is ticked with
`Update (1/2)` in the same call. -/
theorem c5_select_update_cascade_witness :
    update 3 (Cursor.SelectCursor
        [.Invert (.Wait (1/2)), .Wait (1/4)] 0
        (.InvertCursor (.WaitCursor (1/2) 0)) : Cursor Unit Unit)
      (.Update 1) trivF trivStart
      = if 0 + 1 < ([Event.Invert (.Wait (1/2)), .Wait (1/4)] : List (Event Unit)).length
        then (selLoop (fun c' e' => update 2 c' e' trivF trivStart) trivStart
                [.Invert (.Wait (1/2)), .Wait (1/4)] (.Update 1)
                (([Event.Invert (.Wait (1/2)), .Wait (1/4)] : List (Event Unit)).length - (0 + 1))
                (0 + 1)
                (toCursor trivStart
                  (([Event.Invert (.Wait (1/2)), .Wait (1/4)] : List (Event Unit)).getD (0 + 1)
                    (.Wait 0)))
                (.Update (1/2))).map
              (fun r => (r.1, r.2.1, .SelectCursor [.Invert (.Wait (1/2)), .Wait (1/4)]
                r.2.2.1 r.2.2.2))
        else some (.Failure, 1/2, .SelectCursor [.Invert (.Wait (1/2)), .Wait (1/4)] (0 + 1)
              (.InvertCursor (.WaitCursor (1/2) (1/2)))) :=
  c5_select_update_cascade 2 [.Invert (.Wait (1/2)), .Wait (1/4)] 0
    (.InvertCursor (.WaitCursor (1/2) 0)) (.InvertCursor (.WaitCursor (1/2) (1/2))) 1 (1/2)
    trivF trivStart (by simp) (by simp [update]; norm_num)

/-- C7: the `WhileCursor` arm.  First conjunct: the condition cursor is
ticked first, and if it terminates (`Success` or `Failure`) that exact status
and leftover dt are returned at once, with the body index and body cursor
untouched.  Second conjunct: if the condition is `Running`, the body loop
runs (on the original event) and its result is the result of the call.
Third conjunct: one body-loop step on `Update`: when the current body child
succeeds, the index advances and wraps to `0` after the last body child, a
fresh cursor is spawned for the new index, and the loop continues with the
child's leftover dt. -/
theorem c7_while_cursor {A S : Type} (n fw : Nat) (evc : Cursor A S) (rep : List (Event A))
    (i : Nat) (cur : Cursor A S) (e : GameEvent)
    (f : ℚ → A → S → Status × ℚ × S) (start : A → S) :
    (∀ (st : Status) (d : ℚ) (evc' : Cursor A S), st ≠ .Running →
      update n evc e f start = some (st, d, evc') →
      update (n + 1) (.WhileCursor evc rep i cur) e f start
        = some (st, d, .WhileCursor evc' rep i cur))
    ∧ (∀ (d0 : ℚ) (evc' : Cursor A S),
      update n evc e f start = some (.Running, d0, evc') →
      update (n + 1) (.WhileCursor evc rep i cur) e f start
        = (whileLoop (fun c' e' => update n c' e' f start) start n rep i cur e e).map
            (fun r => (r.1, r.2.1, .WhileCursor evc' rep r.2.2.1 r.2.2.2)))
    ∧ (∀ (dt r newDt : ℚ) (c1 : Cursor A S),
      update n cur (.Update r) f start = some (.Success, newDt, c1) →
      whileLoop (fun c' e' => update n c' e' f start) start (fw + 1) rep i cur
          (.Update dt) (.Update r)
        = whileLoop (fun c' e' => update n c' e' f start) start fw rep
            (if i + 1 ≥ rep.length then 0 else i + 1)
            (toCursor start (rep.getD (if i + 1 ≥ rep.length then 0 else i + 1) (.Wait 0)))
            (.Update dt) (.Update newDt)) := by
  refine ⟨fun st d evc' hst h => ?_, fun d0 evc' h => ?_, fun dt r newDt c1 h => ?_⟩
  · cases st with
    | Running => exact absurd rfl hst
    | Success => simp [update, h]
    | Failure => simp [update, h]
  · simp [update, h]
  · simp [whileLoop, h]

/-- C7 witness: a condition that fails instantly on the key press makes the
whole `While` fail at once with the condition's leftover dt. -/
theorem c7_while_cursor_witness :
    update 3 (Cursor.WhileCursor
        (.InvertCursor (.KeyPressedCursor 0)) [.Wait 1] 0 (.WaitCursor 1 0) : Cursor Unit Unit)
      (.KeyPress 0) trivF trivStart
      = some (.Failure, 0, .WhileCursor (.InvertCursor (.KeyPressedCursor 0)) [.Wait 1] 0
          (.WaitCursor 1 0)) :=
  (c7_while_cursor 2 0 (.InvertCursor (.KeyPressedCursor 0)) [.Wait 1] 0 (.WaitCursor 1 0)
      (.KeyPress 0) trivF trivStart).1
    .Failure 0 (.InvertCursor (.KeyPressedCursor 0)) (by decide) (by simp [update])

/-- The `While` body loop never exits when the body is `[Wait 0]` and the
event is an update with non-negative dt: every iteration returns `Success`
with the full dt left over and re-spawns the same `WaitCursor 0 0`. -/
theorem whileLoop_wait0_diverges (n : Nat) : ∀ (fw : Nat) (i : Nat) (d : ℚ), 0 ≤ d →
    whileLoop (fun c' e' => update n c' e' trivF trivStart) trivStart fw [Event.Wait 0] i
      (.WaitCursor 0 0) (.Update 1) (.Update d) = none := by
  intro fw
  induction fw with
  | zero => intro i d _; rfl
  | succ fw ih =>
    intro i d hd
    match n with
    | 0 => rfl
    | m + 1 =>
      have hupd : update (m + 1) (Cursor.WaitCursor 0 0 : Cursor Unit Unit) (.Update d)
          trivF trivStart = some (.Success, 0 + d - 0, .WaitCursor 0 0) := by
        simp [update, hd]
      rw [whileLoop]
      simp only [hupd]
      simpa [toCursor] using ih 0 (0 + d - 0) (by linarith)

/-- C2 (failing input): the cursor spawned from
`While (KeyPressed 0) [Wait 0]` ticked with `Update 1` never returns: the
condition stays `Running` (a key-press cursor ignores updates) and the body
loop re-spawns `Wait 0`, which succeeds instantly with the full dt left, for
ever — `update` is `none` at every fuel, i.e. the source loop diverges. -/
theorem c2_while_body_loop_diverges :
    ∀ (n : Nat),
      update n (toCursor trivStart (Event.While (.KeyPressed 0) [.Wait 0])) (.Update 1)
        trivF trivStart = none := by
  intro n
  match n with
  | 0 => rfl
  | n + 1 =>
    match n with
    | 0 => rfl
    | m + 1 =>
      have hunf : update (m + 1 + 1) (.WhileCursor (.KeyPressedCursor 0) [.Wait 0] 0
            (.WaitCursor 0 0)) (.Update 1) trivF trivStart
          = (whileLoop (fun c' e' => update (m + 1) c' e' trivF trivStart) trivStart (m + 1)
              [.Wait 0] 0 (.WaitCursor 0 0) (.Update 1) (.Update 1)).map
              (fun r => (r.1, r.2.1, .WhileCursor (.KeyPressedCursor 0) [.Wait 0]
                r.2.2.1 r.2.2.2)) := rfl
      show update (m + 1 + 1) (.WhileCursor (.KeyPressedCursor 0) [.Wait 0] 0
        (.WaitCursor 0 0)) (.Update 1) trivF trivStart = none
      rw [hunf, whileLoop_wait0_diverges (m + 1) (m + 1) 0 1 (by norm_num)]
      rfl

/-- If a slot list is a prefix of non-failing slots, then an occupied slot
whose child fails with dt `d`, the `WhenAll` slot loop short-circuits with
`failed d`, whatever comes after. -/
theorem whenAllGo_first_failure {A S : Type}
    (upd : Cursor A S → Option (Status × ℚ × Cursor A S))
    (c c' : Cursor A S) (d : ℚ)
    (hc : upd c = some (.Failure, d, c')) :
    ∀ (pre : List (Option (Cursor A S))) (post : List (Option (Cursor A S)))
      (minDt : ℚ) (term : Nat),
      (∀ x ∈ pre, ∀ cx ∈ x, ∃ st d2 cx', upd cx = some (st, d2, cx') ∧ st ≠ .Failure) →
      ∃ l, whenAllGo upd (pre ++ some c :: post) minDt term = some (.failed d l) := by
  intro pre
  induction pre with
  | nil =>
    intro post minDt term _
    exact ⟨some c' :: post, by simp [whenAllGo, hc]⟩
  | cons x rest ih =>
    intro post minDt term hpre
    match x with
    | none =>
      obtain ⟨l, hl⟩ := ih post minDt (term + 1)
        (fun y hy => hpre y (List.mem_cons_of_mem _ hy))
      exact ⟨none :: l, by simp [whenAllGo, hl, WhenAllRes.consSlot]⟩
    | some cx =>
      obtain ⟨st, d2, cx', hcx, hst⟩ := hpre (some cx) (List.mem_cons_self _ _) cx rfl
      match st, hst with
      | .Running, _ =>
        obtain ⟨l, hl⟩ := ih post minDt term
          (fun y hy => hpre y (List.mem_cons_of_mem _ hy))
        exact ⟨some cx' :: l, by simp [whenAllGo, hcx, hl, WhenAllRes.consSlot]⟩
      | .Success, _ =>
        obtain ⟨l, hl⟩ := ih post (min minDt d2) (term + 1)
          (fun y hy => hpre y (List.mem_cons_of_mem _ hy))
        exact ⟨some cx' :: l, by simp [whenAllGo, hcx, hl, WhenAllRes.consSlot]⟩

/-- C6: `WhenAll` fail-fast.  If the occupied slots before some occupied slot
all return a non-`Failure` status on this tick and that slot's child fails
with leftover `new_dt`, then the whole `WhenAll` update returns
`(Failure, new_dt)` — whatever the slots after it hold (they are not even
ticked), so successes of later-indexed children cannot affect the result. -/
theorem c6_whenall_fail_fast {A S : Type} (n : Nat)
    (pre post : List (Option (Cursor A S))) (c c' : Cursor A S) (d : ℚ) (e : GameEvent)
    (f : ℚ → A → S → Status × ℚ × S) (start : A → S)
    (hpre : ∀ x ∈ pre, ∀ cx ∈ x, ∃ st d2 cx',
      update n cx e f start = some (st, d2, cx') ∧ st ≠ .Failure)
    (hc : update n c e f start = some (.Failure, d, c')) :
    ∃ slots', update (n + 1) (.WhenAllCursor (pre ++ some c :: post)) e f start
      = some (.Failure, d, .WhenAllCursor slots') := by
  obtain ⟨l, hl⟩ := whenAllGo_first_failure (fun c1 => update n c1 e f start) c c' d hc
    pre post f64MaxValue 0 hpre
  exact ⟨l, by simp [update, hl]⟩

/-- C6 witness: slot 0 is still running, slot 1 fails with leftover `1/2`,
slot 2 would succeed — the `WhenAll` fails with `1/2`. -/
theorem c6_whenall_fail_fast_witness :
    ∃ slots', update (2 + 1) (Cursor.WhenAllCursor
        ([some (.WaitCursor 2 0)] ++ some (.InvertCursor (.WaitCursor (1/2) 0))
          :: [some (.WaitCursor 1 0)]) : Cursor Unit Unit)
      (.Update 1) trivF trivStart
      = some (.Failure, 1/2, .WhenAllCursor slots') :=
  c6_whenall_fail_fast 2 [some (.WaitCursor 2 0)] [some (.WaitCursor 1 0)]
    (.InvertCursor (.WaitCursor (1/2) 0)) (.InvertCursor (.WaitCursor (1/2) (1/2))) (1/2)
    (.Update 1) trivF trivStart
    (by
      intro x hx cx hcx
      simp only [List.mem_singleton] at hx
      subst hx
      simp only [Option.mem_def, Option.some.injEq] at hcx
      subst hcx
      refine ⟨.Running, 0, .WaitCursor 2 1, ?_, by decide⟩
      norm_num [update])
    (by simp [update]; norm_num)

/-- Indexing a list of well-formed events with the `Wait 0` default always
yields a well-formed event. -/
theorem WFe_getD {A : Type} {seq : List (Event A)} (hseq : ∀ ev ∈ seq, Event.WFe ev)
    (j : Nat) : Event.WFe (seq.getD j (.Wait 0)) := by
  rcases Nat.lt_or_ge j seq.length with hj | hj
  · rw [List.getD_eq_getElem seq _ hj]
    exact hseq _ (List.getElem_mem hj)
  · rw [List.getD_eq_default seq _ hj]
    exact .wait le_rfl

/-- The initial `WhenAll` slot vector is the map of `some ∘ toCursor`. -/
theorem toCursorSlots_eq_map {A S : Type} (start : A → S) (es : List (Event A)) :
    toCursorSlots start es = es.map (fun e => some (toCursor start e)) := by
  induction es with
  | nil => rfl
  | cons e rest ih => rw [toCursorSlots, ih, List.map_cons]

/-- Spawning a well-formed event tree yields a well-formed cursor. -/
theorem toCursor_WF {A S : Type} (start : A → S) :
    (e : Event A) → e.WFe → (toCursor start e).WF
  | .KeyPressed _, _ => .keyPressedCursor
  | .Action _, _ => .state
  | .Invert e1, .invert h1 => .invertCursor (toCursor_WF start e1 h1)
  | .Wait _, .wait hd => .waitCursor le_rfl hd
  | .Select [], .select hes => .selectCursor hes (.waitCursor le_rfl le_rfl)
  | .Select (e0 :: rest), .select hes =>
    .selectCursor hes (toCursor_WF start e0 (hes e0 (List.mem_cons_self _ _)))
  | .Sequence [], .sequence hes => .sequenceCursor hes (.waitCursor le_rfl le_rfl)
  | .Sequence (e0 :: rest), .sequence hes =>
    .sequenceCursor hes (toCursor_WF start e0 (hes e0 (List.mem_cons_self _ _)))
  | .While c [], .whileE hc hb =>
    .whileCursor (toCursor_WF start c hc) hb (.waitCursor le_rfl le_rfl)
  | .While c (e0 :: rest), .whileE hc hb =>
    .whileCursor (toCursor_WF start c hc) hb
      (toCursor_WF start e0 (hb e0 (List.mem_cons_self _ _)))
  | .WhenAll es, .whenAll hes => by
    rw [toCursor, toCursorSlots_eq_map]
    refine .whenAllCursor ?_ ?_
    · intro c? hc?
      obtain ⟨e1, he1, heq⟩ := List.mem_map.mp hc?
      simp [← heq]
    · intro c hc
      obtain ⟨e1, he1, heq⟩ := List.mem_map.mp hc
      obtain rfl : toCursor start e1 = c := Option.some.inj heq
      exact toCursor_WF start e1 (hes e1 he1)
termination_by e => sizeOf e
decreasing_by
  all_goals simp_wf
  all_goals first
    | omega
    | (have h9 := List.sizeOf_lt_of_mem he1; omega)

/-- Leftover-dt bound for the `Select` loop: if every child tick keeps the
leftover within its incoming dt, the loop's result dt lies in `[0, dt]`. -/
theorem selLoop_bound {A S : Type}
    (upd : Cursor A S → GameEvent → Option (Status × ℚ × Cursor A S)) (start : A → S)
    (seq : List (Event A)) (dt : ℚ) (hdt : 0 ≤ dt)
    (hseq : ∀ ev ∈ seq, Event.WFe ev)
    (hupd : ∀ (c : Cursor A S) (r : ℚ) (st : Status) (d : ℚ) (c' : Cursor A S),
      c.WF → 0 ≤ r → upd c (.Update r) = some (st, d, c') → 0 ≤ d ∧ d ≤ r) :
    ∀ (k i : Nat) (cur : Cursor A S) (r : ℚ) (st : Status) (d : ℚ) (i' : Nat) (c' : Cursor A S),
      cur.WF → 0 ≤ r → r ≤ dt →
      selLoop upd start seq (.Update dt) k i cur (.Update r) = some (st, d, i', c') →
      0 ≤ d ∧ d ≤ dt := by
  intro k
  induction k with
  | zero =>
    intro i cur r st d i' c' _ _ _ h
    rw [selLoop] at h
    obtain ⟨-, rfl, -⟩ := by simpa using h.symm
    exact ⟨le_rfl, hdt⟩
  | succ k ih =>
    intro i cur r st d i' c' hcur hr hrdt h
    rw [selLoop] at h
    rcases hu : upd cur (.Update r) with - | ⟨st1, d1, c1⟩ <;> rw [hu] at h
    · exact absurd h (by simp)
    · have hb := hupd cur r st1 d1 c1 hcur hr hu
      cases st1 with
      | Success =>
        obtain ⟨-, rfl, -⟩ := by simpa using h.symm
        exact ⟨hb.1, le_trans hb.2 hrdt⟩
      | Running =>
        obtain ⟨-, rfl, -⟩ := by simpa using h.symm
        exact ⟨le_rfl, hdt⟩
      | Failure =>
        simp only at h
        by_cases hend : i + 1 ≥ seq.length
        · rw [if_pos hend] at h
          obtain ⟨-, rfl, -⟩ := by simpa [dtOf] using h.symm
          exact ⟨hb.1, le_trans hb.2 hrdt⟩
        · rw [if_neg hend] at h
          exact ih (i + 1) _ d1 st d i' c'
            (toCursor_WF start _ (WFe_getD hseq _)) hb.1 (le_trans hb.2 hrdt) h

/-- Leftover-dt bound for the `Sequence` loop on an `Update` event. -/
theorem seqLoop_bound {A S : Type}
    (upd : Cursor A S → GameEvent → Option (Status × ℚ × Cursor A S)) (start : A → S)
    (seq : List (Event A)) (dt : ℚ) (hdt : 0 ≤ dt)
    (hseq : ∀ ev ∈ seq, Event.WFe ev)
    (hupd : ∀ (c : Cursor A S) (r : ℚ) (st : Status) (d : ℚ) (c' : Cursor A S),
      c.WF → 0 ≤ r → upd c (.Update r) = some (st, d, c') → 0 ≤ d ∧ d ≤ r) :
    ∀ (k i : Nat) (cur : Cursor A S) (r : ℚ) (st : Status) (d : ℚ) (i' : Nat) (c' : Cursor A S),
      cur.WF → 0 ≤ r → r ≤ dt →
      seqLoop upd start seq (.Update dt) k i cur (.Update r) = some (st, d, i', c') →
      0 ≤ d ∧ d ≤ dt := by
  intro k
  induction k with
  | zero =>
    intro i cur r st d i' c' _ _ _ h
    rw [seqLoop] at h
    obtain ⟨-, rfl, -⟩ := by simpa using h.symm
    exact ⟨le_rfl, hdt⟩
  | succ k ih =>
    intro i cur r st d i' c' hcur hr hrdt h
    rw [seqLoop] at h
    rcases hu : upd cur (.Update r) with - | ⟨st1, d1, c1⟩ <;> rw [hu] at h
    · exact absurd h (by simp)
    · have hb := hupd cur r st1 d1 c1 hcur hr hu
      cases st1 with
      | Failure =>
        obtain ⟨-, rfl, -⟩ := by simpa using h.symm
        exact ⟨hb.1, le_trans hb.2 hrdt⟩
      | Running =>
        obtain ⟨-, rfl, -⟩ := by simpa using h.symm
        exact ⟨le_rfl, hdt⟩
      | Success =>
        simp only at h
        by_cases hend : i + 1 ≥ seq.length
        · rw [if_pos hend] at h
          obtain ⟨-, rfl, -⟩ := by simpa using h.symm
          exact ⟨hb.1, le_trans hb.2 hrdt⟩
        · rw [if_neg hend] at h
          exact ih (i + 1) _ d1 st d i' c'
            (toCursor_WF start _ (WFe_getD hseq _)) hb.1 (le_trans hb.2 hrdt) h

/-- Leftover-dt bound for the `While` body loop on an `Update` event. -/
theorem whileLoop_bound {A S : Type}
    (upd : Cursor A S → GameEvent → Option (Status × ℚ × Cursor A S)) (start : A → S)
    (rep : List (Event A)) (dt : ℚ) (hdt : 0 ≤ dt)
    (hrep : ∀ ev ∈ rep, Event.WFe ev)
    (hupd : ∀ (c : Cursor A S) (r : ℚ) (st : Status) (d : ℚ) (c' : Cursor A S),
      c.WF → 0 ≤ r → upd c (.Update r) = some (st, d, c') → 0 ≤ d ∧ d ≤ r) :
    ∀ (fw i : Nat) (cur : Cursor A S) (r : ℚ) (st : Status) (d : ℚ) (i' : Nat) (c' : Cursor A S),
      cur.WF → 0 ≤ r → r ≤ dt →
      whileLoop upd start fw rep i cur (.Update dt) (.Update r) = some (st, d, i', c') →
      0 ≤ d ∧ d ≤ dt := by
  intro fw
  induction fw with
  | zero => intro i cur r st d i' c' _ _ _ h; exact absurd h (by simp [whileLoop])
  | succ fw ih =>
    intro i cur r st d i' c' hcur hr hrdt h
    rw [whileLoop] at h
    rcases hu : upd cur (.Update r) with - | ⟨st1, d1, c1⟩ <;> rw [hu] at h
    · exact absurd h (by simp)
    · have hb := hupd cur r st1 d1 c1 hcur hr hu
      cases st1 with
      | Failure =>
        obtain ⟨-, rfl, -⟩ := by simpa using h.symm
        exact ⟨hb.1, le_trans hb.2 hrdt⟩
      | Running =>
        obtain ⟨-, rfl, -⟩ := by simpa using h.symm
        exact ⟨le_rfl, hdt⟩
      | Success =>
        simp only at h
        exact ih _ _ d1 st d i' c'
          (toCursor_WF start _ (WFe_getD hrep _)) hb.1 (le_trans hb.2 hrdt) h

/-- Leftover-dt bound for the `WhenAll` slot loop: an early failure carries a
dt in `[0, dt]`, and on completion `min_dt` either is the untouched
accumulator (when no slot succeeded, in which case `terminated` kept its
entry value) or lies in `[0, dt]`; the slot-vector length never changes. -/
theorem whenAllGo_bound {A S : Type}
    (upd : Cursor A S → Option (Status × ℚ × Cursor A S)) (dt : ℚ)
    (hupd : ∀ (c : Cursor A S) (st : Status) (d : ℚ) (c' : Cursor A S),
      c.WF → upd c = some (st, d, c') → 0 ≤ d ∧ d ≤ dt) :
    ∀ (slots : List (Option (Cursor A S))) (minDt : ℚ) (term : Nat) (res : WhenAllRes A S),
      (∀ c? ∈ slots, c? ≠ none) → (∀ c, some c ∈ slots → Cursor.WF c) →
      0 ≤ minDt →
      whenAllGo upd slots minDt term = some res →
      (∀ d l, res = .failed d l → 0 ≤ d ∧ d ≤ dt)
      ∧ (∀ m t l, res = .finished m t l →
          l.length = slots.length ∧ term ≤ t
          ∧ ((m = minDt ∧ t = term) ∨ (0 ≤ m ∧ m ≤ dt))) := by
  intro slots
  induction slots with
  | nil =>
    intro minDt term res _ _ hmin h
    rw [whenAllGo] at h
    obtain rfl := Option.some.inj h
    refine ⟨fun d l hres => (nomatch hres), fun m t l hres => ?_⟩
    cases hres
    exact ⟨rfl, le_rfl, Or.inl ⟨rfl, rfl⟩⟩
  | cons x rest ih =>
    intro minDt term res hne hwf hmin h
    match x with
    | none => exact absurd rfl (hne none (List.mem_cons_self _ _))
    | some c =>
      have hcwf : c.WF := hwf c (List.mem_cons_self _ _)
      have hne' : ∀ c? ∈ rest, c? ≠ none := fun y hy => hne y (List.mem_cons_of_mem _ hy)
      have hwf' : ∀ c1, some c1 ∈ rest → Cursor.WF c1 :=
        fun c1 hc1 => hwf c1 (List.mem_cons_of_mem _ hc1)
      rw [whenAllGo] at h
      rcases hu : upd c with - | ⟨st1, d1, c1⟩
      · rw [hu] at h
        exact absurd h (by simp)
      · have hb := hupd c st1 d1 c1 hcwf hu
        rw [hu] at h
        cases st1 with
        | Running =>
          simp only at h
          rcases hrest : whenAllGo upd rest minDt term with - | res1 <;> rw [hrest] at h
          · exact absurd h (by simp)
          · obtain rfl : WhenAllRes.consSlot (some c1) res1 = res := by simpa using h
            obtain ⟨hf, hd⟩ := ih minDt term res1 hne' hwf' hmin hrest
            cases res1 with
            | failed d2 l2 =>
              refine ⟨fun d l hres => ?_, fun m t l hres => nomatch hres⟩
              cases hres
              exact hf d2 l2 rfl
            | finished m2 t2 l2 =>
              refine ⟨fun d l hres => (nomatch hres), fun m t l hres => ?_⟩
              cases hres
              obtain ⟨hl, ht, hcase⟩ := hd m2 t2 l2 rfl
              exact ⟨by simp [hl], ht, hcase⟩
        | Failure =>
          simp only at h
          obtain rfl : WhenAllRes.failed d1 (some c1 :: rest) = res := by simpa using h
          refine ⟨fun d l hres => ?_, fun m t l hres => nomatch hres⟩
          cases hres
          exact hb
        | Success =>
          simp only at h
          rcases hrest : whenAllGo upd rest (min minDt d1) (term + 1) with - | res1 <;>
            rw [hrest] at h
          · exact absurd h (by simp)
          · obtain rfl : WhenAllRes.consSlot (some c1) res1 = res := by simpa using h
            have hmin' : 0 ≤ min minDt d1 := le_min hmin hb.1
            obtain ⟨hf, hd⟩ := ih (min minDt d1) (term + 1) res1 hne' hwf' hmin' hrest
            cases res1 with
            | failed d2 l2 =>
              refine ⟨fun d l hres => ?_, fun m t l hres => nomatch hres⟩
              cases hres
              exact hf d2 l2 rfl
            | finished m2 t2 l2 =>
              refine ⟨fun d l hres => (nomatch hres), fun m t l hres => ?_⟩
              cases hres
              obtain ⟨hl, ht, hcase⟩ := hd m2 t2 l2 rfl
              refine ⟨by simp [hl], by omega, Or.inr ?_⟩
              rcases hcase with ⟨rfl, -⟩ | hb2
              · exact ⟨hmin', le_trans (min_le_right _ _) hb.2⟩
              · exact hb2

/-- Main leftover-dt bound: on an `Update dt` tick with `0 ≤ dt`, a
well-formed cursor under a `stepOK` step function reports a leftover dt in
`[0, dt]`, whatever the returned status. -/
theorem update_dt_bound {A S : Type} (f : ℚ → A → S → Status × ℚ × S) (start : A → S)
    (hf : stepOK f) :
    ∀ (n : Nat) (c : Cursor A S) (dt : ℚ) (st : Status) (d : ℚ) (c' : Cursor A S),
      c.WF → 0 ≤ dt → update n c (.Update dt) f start = some (st, d, c') →
      0 ≤ d ∧ d ≤ dt := by
  intro n
  induction n with
  | zero => intro c dt st d c' _ _ h; exact absurd h (by simp [update])
  | succ n ih =>
    intro c dt st d c' hWF hdt h
    have hupd : ∀ (c1 : Cursor A S) (r : ℚ) (st1 : Status) (d1 : ℚ) (c1' : Cursor A S),
        c1.WF → 0 ≤ r → update n c1 (.Update r) f start = some (st1, d1, c1') →
        0 ≤ d1 ∧ d1 ≤ r :=
      fun c1 r st1 d1 c1' hw hr hh => ih c1 r st1 d1 c1' hw hr hh
    cases c with
    | KeyPressedCursor k =>
      simp only [update] at h
      obtain ⟨-, rfl, -⟩ := by simpa using h.symm
      exact ⟨le_rfl, hdt⟩
    | State a s =>
      simp only [update] at h
      obtain ⟨-, rfl, -⟩ := by simpa using h.symm
      exact hf dt a s hdt
    | InvertCursor cur =>
      cases hWF with
      | invertCursor hcw =>
        simp only [update] at h
        rcases hu : update n cur (.Update dt) f start with - | ⟨st1, d1, c1⟩ <;> rw [hu] at h
        · exact absurd h (by simp)
        · have hb := ih cur dt st1 d1 c1 hcw hdt hu
          cases st1 <;>
            (obtain ⟨-, rfl, -⟩ := by simpa using h.symm
             exact hb)
    | WaitCursor w t =>
      cases hWF with
      | waitCursor ht0 htw =>
        simp only [update] at h
        split at h
        · obtain ⟨-, rfl, -⟩ := by simpa using h.symm
          constructor <;> linarith
        · obtain ⟨-, rfl, -⟩ := by simpa using h.symm
          exact ⟨le_rfl, hdt⟩
    | SelectCursor seq i cur =>
      cases hWF with
      | selectCursor hseq hcw =>
        simp only [update] at h
        rcases hsel : selLoop (fun c1 e1 => update n c1 e1 f start) start seq (.Update dt)
            (seq.length - i) i cur (.Update dt) with - | ⟨st2, d2, i2, c2⟩ <;> rw [hsel] at h
        · exact absurd h (by simp)
        · obtain ⟨rfl, rfl, -⟩ := by simpa using h.symm
          exact selLoop_bound _ start seq dt hdt hseq hupd _ i cur dt st d i2 c2
            hcw hdt le_rfl hsel
    | SequenceCursor seq i cur =>
      cases hWF with
      | sequenceCursor hseq hcw =>
        simp only [update] at h
        rcases hseql : seqLoop (fun c1 e1 => update n c1 e1 f start) start seq (.Update dt)
            (seq.length - i) i cur (.Update dt) with - | ⟨st2, d2, i2, c2⟩ <;> rw [hseql] at h
        · exact absurd h (by simp)
        · obtain ⟨rfl, rfl, -⟩ := by simpa using h.symm
          exact seqLoop_bound _ start seq dt hdt hseq hupd _ i cur dt st d i2 c2
            hcw hdt le_rfl hseql
    | WhileCursor evc rep i cur =>
      cases hWF with
      | whileCursor hevc hrep hcw =>
        simp only [update] at h
        rcases hu : update n evc (.Update dt) f start with - | ⟨st1, d1, evc1⟩ <;> rw [hu] at h
        · exact absurd h (by simp)
        · have hb := ih evc dt st1 d1 evc1 hevc hdt hu
          cases st1 with
          | Running =>
            simp only at h
            rcases hwl : whileLoop (fun c1 e1 => update n c1 e1 f start) start n rep i cur
                (.Update dt) (.Update dt) with - | ⟨st2, d2, i2, c2⟩ <;> rw [hwl] at h
            · exact absurd h (by simp)
            · obtain ⟨rfl, rfl, -⟩ := by simpa using h.symm
              exact whileLoop_bound _ start rep dt hdt hrep hupd n i cur dt st d i2 c2
                hcw hdt le_rfl hwl
          | Success =>
            simp only at h
            obtain ⟨-, rfl, -⟩ := by simpa using h.symm
            exact hb
          | Failure =>
            simp only at h
            obtain ⟨-, rfl, -⟩ := by simpa using h.symm
            exact hb
    | WhenAllCursor slots =>
      cases hWF with
      | whenAllCursor hne hwf =>
        simp only [update] at h
        rcases hgo : whenAllGo (fun c1 => update n c1 (.Update dt) f start) slots
            f64MaxValue 0 with - | res <;> rw [hgo] at h
        · exact absurd h (by simp)
        · have hupd0 : ∀ (c1 : Cursor A S) (st1 : Status) (d1 : ℚ) (c1' : Cursor A S),
              c1.WF → update n c1 (.Update dt) f start = some (st1, d1, c1') →
              0 ≤ d1 ∧ d1 ≤ dt :=
            fun c1 st1 d1 c1' hw hh => ih c1 dt st1 d1 c1' hw hdt hh
          obtain ⟨hfail, hfin⟩ := whenAllGo_bound _ dt hupd0 slots f64MaxValue 0 res hne hwf
            (by norm_num [f64MaxValue]) hgo
          cases res with
          | failed d2 l2 =>
            simp only at h
            obtain ⟨-, rfl, -⟩ := by simpa using h.symm
            exact hfail d l2 rfl
          | finished m2 t2 l2 =>
            obtain ⟨hl, ht, hcase⟩ := hfin m2 t2 l2 rfl
            simp only at h
            split at h
            · obtain ⟨-, rfl, -⟩ := by simpa [dtOf] using h.symm
              exact ⟨hdt, le_rfl⟩
            · split at h
              · obtain ⟨-, rfl, -⟩ := by simpa using h.symm
                rcases hcase with ⟨-, rfl⟩ | hb2
                · omega
                · exact hb2
              · obtain ⟨-, rfl, -⟩ := by simpa using h.symm
                exact ⟨le_rfl, hdt⟩

/-- C3 (time conservation): for every well-formed cursor tree ticked with
`Update dt`, `0 ≤ dt`, under the spec's precondition that the step function
keeps its leftover dt in `[0, input dt]`, a terminal result's leftover dt
lies in `[0, dt]`.  Well-formedness (`Cursor.WF`) characterises the cursors
reachable from `to_cursor` on a well-formed event tree: wait cursors keep
`0 ≤ elapsed ≤ target` and `WhenAll` slots are all occupied (the source
never writes `None`). -/
theorem c3_time_conservation {A S : Type} (n : Nat) (c : Cursor A S) (dt : ℚ)
    (st : Status) (d : ℚ) (c' : Cursor A S)
    (f : ℚ → A → S → Status × ℚ × S) (start : A → S)
    (hWF : c.WF) (hf : stepOK f) (hdt : 0 ≤ dt)
    (h : update n c (.Update dt) f start = some (st, d, c'))
    (_hst : st ≠ .Running) : 0 ≤ d ∧ d ≤ dt :=
  update_dt_bound f start hf n c dt st d c' hWF hdt h

/-- C3 witness: `Sequence [Wait (1/2), Wait (1/2)]` ticked with `Update (6/5)`
terminates with `Success` and leftover `1/5 ∈ [0, 6/5]` (spec scenario 3). -/
theorem c3_time_conservation_witness : (0 : ℚ) ≤ 1/5 ∧ (1/5 : ℚ) ≤ 6/5 :=
  c3_time_conservation 3
    (toCursor trivStart (Event.Sequence [.Wait (1/2), .Wait (1/2)])) (6/5) .Success (1/5)
    (.SequenceCursor [.Wait (1/2), .Wait (1/2)] 2 (.WaitCursor (1/2) (1/2)))
    trivF trivStart
    (toCursor_WF trivStart _ (.sequence (by
      intro e he
      simp only [List.mem_cons, List.mem_singleton] at he
      rcases he with rfl | rfl | h
      · exact .wait (by norm_num)
      · exact .wait (by norm_num)
      · cases h)))
    (fun dt a s hdt => ⟨le_rfl, hdt⟩)
    (by norm_num)
    (by
      simp [update, seqLoop, toCursor]
      norm_num
      exact ⟨_, _, _, _, ⟨rfl, rfl, rfl, rfl⟩, rfl, rfl, rfl, rfl⟩)
    (by decide)

end Piston